import Mathlib

/-!
Verification of the rendering core of the `raytracer` repository.

The development shallowly embeds the C++ sources `src/include/camera.h`,
`src/include/color.h` and `src/include/rtweekend.h`.  C++ `double`
arithmetic is embedded as exact rational arithmetic (`ℚ`); the two
transcendental library calls the core makes (`std::sqrt` inside
`unit_vector`, `std::tan` in `camera::initialize`) are passed as explicit
function parameters `sq tn : ℚ → ℚ`, so every definition stays executable
and every theorem holds for any interpretation of those functions (with
hypotheses such as `tn 0 = 0` recording facts of the real functions where
they are needed).

The geometric layer (`vec3.h`, `interval.h`, `ray.h`, `hittable.h`,
`material.h`) is not part of the shown sources; those narrow interfaces
are modelled from the specification, as marked on each definition.
-/

namespace Raytracer

/-- 3-component rational vector.  Modelled from the spec: `vec3.h` is not in
the shown sources; the spec describes 3-component real vectors with
arithmetic, dot/cross, normalization (`color` is an alias of `vec3`). -/
structure Vec3 where
  x : ℚ
  y : ℚ
  z : ℚ
deriving DecidableEq

/-- Colors are vectors, as in `color.h` (`using color = vec3`). -/
abbrev Color := Vec3

instance : Add Vec3 := ⟨fun a b => ⟨a.x + b.x, a.y + b.y, a.z + b.z⟩⟩

instance : Sub Vec3 := ⟨fun a b => ⟨a.x - b.x, a.y - b.y, a.z - b.z⟩⟩

instance : Neg Vec3 := ⟨fun a => ⟨-a.x, -a.y, -a.z⟩⟩

/-- Componentwise product, the C++ `vec3 * vec3` used for attenuation. -/
instance : Mul Vec3 := ⟨fun a b => ⟨a.x * b.x, a.y * b.y, a.z * b.z⟩⟩

/-- Scalar multiple, the C++ `double * vec3`. -/
instance : SMul ℚ Vec3 := ⟨fun q a => ⟨q * a.x, q * a.y, q * a.z⟩⟩

theorem Vec3.add_def (a b : Vec3) : a + b = ⟨a.x + b.x, a.y + b.y, a.z + b.z⟩ := rfl

theorem Vec3.sub_def (a b : Vec3) : a - b = ⟨a.x - b.x, a.y - b.y, a.z - b.z⟩ := rfl

theorem Vec3.mul_def (a b : Vec3) : a * b = ⟨a.x * b.x, a.y * b.y, a.z * b.z⟩ := rfl

theorem Vec3.smul_def (q : ℚ) (a : Vec3) : q • a = ⟨q * a.x, q * a.y, q * a.z⟩ := rfl

/-- Division of a vector by a scalar, the C++ `vec3 / double`. -/
def vdiv (a : Vec3) (q : ℚ) : Vec3 := ⟨a.x / q, a.y / q, a.z / q⟩

/-- Dot product.  Modelled from the spec (vector-algebra primitives). -/
def dot (a b : Vec3) : ℚ := a.x * b.x + a.y * b.y + a.z * b.z

/-- Cross product.  Modelled from the spec (vector-algebra primitives). -/
def cross (a b : Vec3) : Vec3 :=
  ⟨a.y * b.z - a.z * b.y, a.z * b.x - a.x * b.z, a.x * b.y - a.y * b.x⟩

/-- `unit_vector v = v / v.length()` with `length = sqrt (dot v v)`; the
square root is the explicit parameter `sq`.  Modelled from the spec
(normalization primitive of `vec3.h`). -/
def unitVector (sq : ℚ → ℚ) (v : Vec3) : Vec3 := vdiv v (sq (dot v v))

/-- A ray: origin point and (not necessarily unit) direction, from `ray.h`
as described by the spec. -/
structure Ray where
  orig : Vec3
  dir : Vec3
deriving DecidableEq

/-- A parameter interval with a possibly infinite upper bound, from
`interval.h` as used by `camera.h` (`interval(0.001, infinity)`).
Modelled from the spec: `⊤` stands for `infinity`. -/
structure Interval where
  lo : ℚ
  hi : WithTop ℚ
deriving DecidableEq

/-- Geometric data of a hit.  Modelled from the spec: nearest intersection
distance `t`, world point `p`, surface normal, front/back-face flag.  The
C++ `hit_record` also carries the material pointer; here the hit test
returns the record paired with its material (see `Hittable`). -/
structure HitRecord where
  p : Vec3
  normal : Vec3
  t : ℚ
  front_face : Bool

/-- Material capability.  Modelled from the spec:
`scatter(incoming_ray, hit_record) -> optional (attenuation, outgoing_ray)`;
`none` means full absorption. -/
structure Material where
  scatter : Ray → HitRecord → Option (Color × Ray)

/-- Scene capability.  Modelled from the spec:
`hit(ray, valid_parameter_interval) -> optional hit_record` (paired here
with the hit material, which the C++ record carries as a pointer). -/
structure Hittable where
  hit : Ray → Interval → Option (HitRecord × Material)

/-- The interval `interval(0.001, infinity)` passed to the hit test in
`camera::ray_color` (camera.h line 198). -/
def hitInterval : Interval := ⟨1 / 1000, ⊤⟩

/-- Black, `color(0, 0, 0)`. -/
def black : Color := ⟨0, 0, 0⟩

/-- `camera::ray_color` (camera.h lines 190-209): recursion floor at
`depth <= 0`, hit test over `hitInterval`, scatter or absorb on hit,
background gradient on miss. -/
def ray_color (sq : ℚ → ℚ) (r : Ray) (depth : ℤ) (world : Hittable) : Color :=
  if depth ≤ 0 then black
  else
    match world.hit r hitInterval with
    | some (rec, mat) =>
      match mat.scatter r rec with
      | some (attenuation, scattered) =>
        attenuation * ray_color sq scattered (depth - 1) world
      | none => black
    | none =>
      let unit_direction := unitVector sq r.dir
      let a := (1 / 2 : ℚ) * (unit_direction.y + 1)
      (1 - a) • (⟨1, 1, 1⟩ : Color) + a • (⟨1 / 2, 7 / 10, 1⟩ : Color)
termination_by depth.toNat
decreasing_by omega

/-- Gas-metered variant of `ray_color`: consumes one unit of gas per call
and answers `none` when the gas is exhausted before the function would
have returned.  Used to state that the recursion of `ray_color` terminates
within `depth + 1` nested calls. -/
def rayColorGas (sq : ℚ → ℚ) (gas : ℕ) (r : Ray) (depth : ℤ) (world : Hittable) :
    Option Color :=
  match gas with
  | 0 => none
  | g + 1 =>
    if depth ≤ 0 then some black
    else
      match world.hit r hitInterval with
      | some (rec, mat) =>
        match mat.scatter r rec with
        | some (attenuation, scattered) =>
          (rayColorGas sq g scattered (depth - 1) world).map (fun c => attenuation * c)
        | none => some black
      | none =>
        let unit_direction := unitVector sq r.dir
        let a := (1 / 2 : ℚ) * (unit_direction.y + 1)
        some ((1 - a) • (⟨1, 1, 1⟩ : Color) + a • (⟨1 / 2, 7 / 10, 1⟩ : Color))

/-- Instrumented variant of `ray_color` that also returns the list of
intervals passed to the scene's hit test, one per query, over the whole
recursion. -/
def rayColorTrace (sq : ℚ → ℚ) (r : Ray) (depth : ℤ) (world : Hittable) :
    Color × List Interval :=
  if depth ≤ 0 then (black, [])
  else
    match world.hit r hitInterval with
    | some (rec, mat) =>
      match mat.scatter r rec with
      | some (attenuation, scattered) =>
        let rest := rayColorTrace sq scattered (depth - 1) world
        (attenuation * rest.1, hitInterval :: rest.2)
      | none => (black, [hitInterval])
    | none =>
      let unit_direction := unitVector sq r.dir
      let a := (1 / 2 : ℚ) * (unit_direction.y + 1)
      ((1 - a) • (⟨1, 1, 1⟩ : Color) + a • (⟨1 / 2, 7 / 10, 1⟩ : Color),
       [hitInterval])
termination_by depth.toNat
decreasing_by omega

/-- A scene with no intersectable geometry: its hit test never reports a
hit. -/
def emptyWorld : Hittable := ⟨fun _ _ => none⟩

/-! ## Static row partition of the scheduler (camera.h lines 79-85) -/

/-- `int lines_per_thread = image_height / num_threads;` (camera.h line 79);
C++ integer division of nonnegative operands is `Nat` division. -/
def lines_per_thread (H T : ℕ) : ℕ := H / T

/-- `int start = t * lines_per_thread;` (camera.h line 81). -/
def rowStart (H T t : ℕ) : ℕ := t * lines_per_thread H T

/-- `int end = (t == num_threads - 1) ? image_height : (t + 1) * lines_per_thread;`
(camera.h lines 82-83). -/
def rowEnd (H T t : ℕ) : ℕ :=
  if t = T - 1 then H else (t + 1) * lines_per_thread H T

/-- Row `j` lies in the half-open range handed to worker `t`. -/
def assignedRows (H T t j : ℕ) : Prop := rowStart H T t ≤ j ∧ j < rowEnd H T t

instance (H T t j : ℕ) : Decidable (assignedRows H T t j) := by
  unfold assignedRows; infer_instance

/-! ## Camera configuration and derived state (camera.h) -/

/-- The public configuration fields of `class camera`
(camera.h lines 17-28). -/
structure CameraConfig where
  aspect_ratio : ℚ
  image_width : ℤ
  samples_per_pixel : ℤ
  max_depth : ℤ
  vfov : ℚ
  lookfrom : Vec3
  lookat : Vec3
  vup : Vec3
  defocus_angle : ℚ
  focus_dist : ℚ
deriving DecidableEq

/-- The private derived state of `class camera`
(camera.h lines 106-114). -/
structure CameraState where
  image_height : ℤ
  pixel_samples_scale : ℚ
  center : Vec3
  pixel00_loc : Vec3
  pixel_delta_u : Vec3
  pixel_delta_v : Vec3
  w : Vec3
  u : Vec3
  v : Vec3
  defocus_disk_u : Vec3
  defocus_disk_v : Vec3
deriving DecidableEq

/-- `const double pi = 3.141519;` (rtweekend.h line 16, sic: the source's
literal, not the mathematical constant). -/
def piConst : ℚ := 3141519 / 1000000

/-- `degrees_to_radians` (rtweekend.h lines 20-22). -/
def degrees_to_radians (degrees : ℚ) : ℚ := degrees * piConst / 180

/-- C++ `int(x)` conversion from `double`: truncation toward zero. -/
def cppTrunc (q : ℚ) : ℤ := if q < 0 then ⌈q⌉ else ⌊q⌋

/-- `camera::initialize` (camera.h lines 116-163).  `sq` interprets the
`std::sqrt` inside `unit_vector`; `tn` interprets `std::tan`. -/
def initCamera (sq tn : ℚ → ℚ) (cfg : CameraConfig) : CameraState :=
  let ih0 : ℤ := cppTrunc ((cfg.image_width : ℚ) / cfg.aspect_ratio)
  let image_height : ℤ := if ih0 < 1 then 1 else ih0
  let pixel_samples_scale : ℚ := 1 / (cfg.samples_per_pixel : ℚ)
  let center := cfg.lookfrom
  let theta := degrees_to_radians cfg.vfov
  let h := tn (theta / 2)
  let viewport_height := 2 * h * cfg.focus_dist
  let viewport_width := viewport_height * ((cfg.image_width : ℚ) / (image_height : ℚ))
  let w := unitVector sq (cfg.lookfrom - cfg.lookat)
  let u := unitVector sq (cross cfg.vup w)
  let v := cross w u
  let viewport_u := viewport_width • u
  let viewport_v := viewport_height • (-v)
  let pixel_delta_u := vdiv viewport_u (cfg.image_width : ℚ)
  let pixel_delta_v := vdiv viewport_v (image_height : ℚ)
  let viewport_upper_left :=
    center - (cfg.focus_dist • w) - vdiv viewport_u 2 - vdiv viewport_v 2
  let pixel00_loc := viewport_upper_left + (1 / 2 : ℚ) • (pixel_delta_u + pixel_delta_v)
  let defocus_radius := cfg.focus_dist * tn (degrees_to_radians (cfg.defocus_angle / 2))
  ⟨image_height, pixel_samples_scale, center, pixel00_loc, pixel_delta_u,
   pixel_delta_v, w, u, v, defocus_radius • u, defocus_radius • v⟩

/-- `camera::sample_square` (camera.h lines 178-181); `a` and `b` are the
two `random_double()` draws. -/
def sample_square (a b : ℚ) : Vec3 := ⟨a - 1 / 2, b - 1 / 2, 0⟩

/-- `camera::defocus_disk_sample` (camera.h lines 183-188); `p0` and `p1`
are the two coordinates of the `random_in_unit_disk()` draw. -/
def defocus_disk_sample (st : CameraState) (p0 p1 : ℚ) : Vec3 :=
  st.center + (p0 • st.defocus_disk_u) + (p1 • st.defocus_disk_v)

/-- One per-sample draw of the thread-local randomness source: the two
`random_double()` calls of `sample_square` and the two coordinates of
`random_in_unit_disk()`. -/
abbrev SampleDraw := (ℚ × ℚ) × (ℚ × ℚ)

/-- `camera::get_ray` (camera.h lines 165-176). -/
def get_ray (cfg : CameraConfig) (st : CameraState) (i j : ℕ) (d : SampleDraw) : Ray :=
  let offset := sample_square d.1.1 d.1.2
  let pixel_sample :=
    st.pixel00_loc + (((i : ℚ) + offset.x) • st.pixel_delta_u) +
      (((j : ℚ) + offset.y) • st.pixel_delta_v)
  let ray_origin :=
    if cfg.defocus_angle ≤ 0 then st.center else defocus_disk_sample st d.2.1 d.2.2
  ⟨ray_origin, pixel_sample - ray_origin⟩

/-- The per-pixel body of `render_lines` (camera.h lines 60-71): sum
`samples_per_pixel` samples of `ray_color` over jittered rays and scale by
`pixel_samples_scale`.  `rnd s` is the randomness consumed by sample `s`. -/
def renderPixel (sq : ℚ → ℚ) (cfg : CameraConfig) (st : CameraState)
    (world : Hittable) (rnd : ℕ → SampleDraw) (i j : ℕ) : Color :=
  st.pixel_samples_scale •
    ((List.range cfg.samples_per_pixel.toNat).foldl
      (fun acc s => acc + ray_color sq (get_ray cfg st i j (rnd s)) cfg.max_depth world)
      black)

/-! ## Output quantization (color.h) -/

/-- `interval::clamp`.  Modelled from the spec: `interval.h` is not in the
shown sources; the spec documents clamping each channel to the interval
bounds (`[0, 0.999]` for the output intensity interval). -/
def clampQ (lo hi x : ℚ) : ℚ := if x < lo then lo else if x > hi then hi else x

/-- One channel of `write_color` (color.h lines 16-19):
`int(256 * intensity.clamp(c))` with `intensity = interval(0.000, 0.999)`. -/
def colorByte (c : ℚ) : ℤ := cppTrunc (256 * clampQ 0 (999 / 1000) c)

/-- `write_color` (color.h lines 10-22) as the triple of integers printed
for one pixel line. -/
def write_color (pixel_color : Color) : ℤ × ℤ × ℤ :=
  (colorByte pixel_color.x, colorByte pixel_color.y, colorByte pixel_color.z)

/-! ## Event-trace model of `camera::render` (camera.h lines 30-103)

A render execution is modelled as a list of observable events.  The main
thread writes the PPM header (line 33), spawns the workers (line 84),
joins them (lines 89-91) and then emits every buffer cell through
`write_color` (lines 100-102).  Each worker, for each of its rows, first
performs the atomic decrement `--scanlines_remaining` (line 52) and then
stores every pixel of the row into the shared buffer (line 70).  A list
of events is a valid trace when its main-thread subsequence and each
worker's subsequence (bracketed by that worker's spawn and join) are
exactly the sequences the code executes. -/

/-- One observable event of a render execution. -/
inductive Ev where
  | header : Ev
  | spawn : ℕ → Ev
  | dec : ℕ → ℕ → Ev
  | store : ℕ → ℕ → ℕ → Ev
  | join : ℕ → Ev
  | emit : ℕ → Ev
deriving DecidableEq

/-- The events of worker `t` for one row `j`: the progress decrement
(camera.h line 52), then the stores of columns `0, …, W-1`
(camera.h lines 60-71). -/
def rowEvents (W t j : ℕ) : List Ev :=
  Ev.dec t j :: (List.range W).map (fun i => Ev.store t i j)

/-- The whole event sequence of worker `t` (`render_lines start end`,
camera.h lines 49-73): its assigned rows in increasing order. -/
def workerTrace (W H T t : ℕ) : List Ev :=
  (List.range' (rowStart H T t) (rowEnd H T t - rowStart H T t)).flatMap (rowEvents W t)

/-- The main thread's own events in program order: header, spawns, joins,
buffer emission (camera.h lines 33, 80-85, 89-91, 100-102). -/
def mainOrder (W H T : ℕ) : List Ev :=
  Ev.header ::
    ((List.range T).map Ev.spawn ++ (List.range T).map Ev.join ++
      (List.range (W * H)).map Ev.emit)

/-- Events executed by the main thread. -/
def isMainEv : Ev → Bool
  | Ev.header => true
  | Ev.spawn _ => true
  | Ev.join _ => true
  | Ev.emit _ => true
  | _ => false

/-- The worker executing an event, if any. -/
def evWorker : Ev → Option ℕ
  | Ev.dec t _ => some t
  | Ev.store t _ _ => some t
  | _ => none

/-- Events ordered with worker `t`'s thread: its own events plus its spawn
and join. -/
def belongsTo (t : ℕ) : Ev → Bool
  | Ev.dec t' _ => t' == t
  | Ev.store t' _ _ => t' == t
  | Ev.spawn t' => t' == t
  | Ev.join t' => t' == t
  | _ => false

/-- Decrement events. -/
def isDec : Ev → Bool
  | Ev.dec _ _ => true
  | _ => false

/-- Decrement events of row `j`. -/
def isDecRow (j : ℕ) : Ev → Bool
  | Ev.dec _ j' => j' == j
  | _ => false

/-- Emission events. -/
def isEmit : Ev → Bool
  | Ev.emit _ => true
  | _ => false

/-- Join events. -/
def isJoin : Ev → Bool
  | Ev.join _ => true
  | _ => false

/-- Writes to the image output stream (`std::cout`): the header and the
pixel lines. -/
def isStdoutWrite : Ev → Bool
  | Ev.header => true
  | Ev.emit _ => true
  | _ => false

/-- Events of worker `t` touching row `j` (its decrement and its pixel
stores). -/
def rowEvBy (t j : ℕ) : Ev → Bool
  | Ev.dec t' j' => t' == t && j' == j
  | Ev.store t' _ j' => t' == t && j' == j
  | _ => false

/-- Store events into flat buffer cell of pixel `(i, j)`. -/
def isStoreAt (i j : ℕ) : Ev → Bool
  | Ev.store _ i' j' => i' == i && j' == j
  | _ => false

/-- A list of events is a valid trace of `camera::render` with image width
`W`, height `H` and `T` workers: (1) the main thread's subsequence is its
program order; (2) worker `t`'s subsequence, bracketed by its spawn and
join, is its program order; (3) every event is a main-thread event or an
event of one of the `T` workers. -/
def ValidTrace (W H T : ℕ) (tr : List Ev) : Prop :=
  tr.filter isMainEv = mainOrder W H T
  ∧ (∀ t, t < T →
      tr.filter (belongsTo t) = Ev.spawn t :: (workerTrace W H T t ++ [Ev.join t]))
  ∧ (∀ e ∈ tr, isMainEv e = true ∨ ∃ t, t < T ∧ evWorker e = some t)

instance (W H T : ℕ) (tr : List Ev) : Decidable (ValidTrace W H T tr) := by
  unfold ValidTrace; infer_instance

/-- The progress counter `scanlines_remaining` after a prefix of events:
initialized to the row count, decreased by one at each decrement event
(camera.h lines 38 and 52). -/
def scanlinesRemaining (H : ℕ) (pre : List Ev) : ℤ :=
  (H : ℤ) - (pre.countP isDec : ℤ)

/-- Applying one event to the shared pixel buffer: a store of pixel
`(i, j)` writes the pixel's color at flat index `j * W + i`
(camera.h line 70); other events leave the buffer unchanged.  `pv i j` is
the color the worker computed for pixel `(i, j)`. -/
def applyEvent (W : ℕ) (pv : ℕ → ℕ → Color) (buf : List Color) : Ev → List Color
  | Ev.store _ i j => buf.set (j * W + i) (pv i j)
  | _ => buf

/-- The shared pixel buffer after a list of events. -/
def applyTrace (W : ℕ) (pv : ℕ → ℕ → Color) (tr : List Ev) (buf : List Color) :
    List Color :=
  tr.foldl (applyEvent W pv) buf

/-- The fully sequential execution with one worker on a 1×1 image; used as
a concrete valid trace. -/
def seqTrace1 : List Ev :=
  [Ev.header, Ev.spawn 0, Ev.dec 0 0, Ev.store 0 0 0, Ev.join 0, Ev.emit 0]

/-! ## C1: the static row partition covers `[0, H)` exactly once -/

theorem rowEnd_le (H T t : ℕ) (hT : 1 ≤ T) (ht : t < T) : rowEnd H T t ≤ H := by
  unfold rowEnd
  split
  · exact le_rfl
  · calc (t + 1) * lines_per_thread H T
        ≤ T * lines_per_thread H T := Nat.mul_le_mul_right _ (by omega)
      _ ≤ H := by rw [mul_comm]; exact Nat.div_mul_le_self H T

theorem rowStart_le_rowEnd (H T t : ℕ) (hT : 1 ≤ T) (ht : t < T) :
    rowStart H T t ≤ rowEnd H T t := by
  unfold rowStart rowEnd
  split
  · rename_i h
    subst h
    calc (T - 1) * lines_per_thread H T
        ≤ T * lines_per_thread H T := Nat.mul_le_mul_right _ (by omega)
      _ ≤ H := by rw [mul_comm]; exact Nat.div_mul_le_self H T
  · exact Nat.mul_le_mul_right _ (by omega)

theorem assigned_lt_of_mem (H T t j : ℕ) (hT : 1 ≤ T) (ht : t < T)
    (h : assignedRows H T t j) : j < H :=
  lt_of_lt_of_le h.2 (rowEnd_le H T t hT ht)

theorem assigned_not_lt (H T t t' j : ℕ) (htt' : t < t') (ht' : t' < T)
    (h : assignedRows H T t j) (h' : assignedRows H T t' j) : False := by
  have hne : t ≠ T - 1 := by omega
  have h1 : j < (t + 1) * lines_per_thread H T := by
    have := h.2
    unfold rowEnd at this
    rwa [if_neg hne] at this
  have h2 : (t + 1) * lines_per_thread H T ≤ t' * lines_per_thread H T :=
    Nat.mul_le_mul_right _ (by omega)
  have h3 : t' * lines_per_thread H T ≤ j := h'.1
  omega

theorem assigned_unique (H T t t' j : ℕ) (ht : t < T) (ht' : t' < T)
    (h : assignedRows H T t j) (h' : assignedRows H T t' j) : t = t' := by
  rcases Nat.lt_trichotomy t t' with hlt | heq | hgt
  · exact absurd (assigned_not_lt H T t t' j hlt ht' h h') id
  · exact heq
  · exact absurd (assigned_not_lt H T t' t j hgt ht h' h) id

theorem partition_exists_unique (H T : ℕ) (hH : 1 ≤ H) (hT : 1 ≤ T) :
    ∀ j, j < H → ∃! t, t < T ∧ assignedRows H T t j := by
  intro j hj
  set L := lines_per_thread H T with hL
  by_cases hcase : j < (T - 1) * L
  · have hLpos : 0 < L := by
      rcases Nat.eq_zero_or_pos L with h0 | hpos
      · rw [h0, Nat.mul_zero] at hcase; omega
      · exact hpos
    refine ⟨j / L, ⟨?_, ?_, ?_⟩, ?_⟩
    · have : j / L < T - 1 := (Nat.div_lt_iff_lt_mul hLpos).mpr hcase
      omega
    · exact Nat.div_mul_le_self j L
    · have hne : j / L ≠ T - 1 := by
        have : j / L < T - 1 := (Nat.div_lt_iff_lt_mul hLpos).mpr hcase
        omega
      unfold rowEnd
      rw [if_neg hne]
      exact (Nat.div_lt_iff_lt_mul hLpos).mp (Nat.lt_succ_self _)
    · rintro t' ⟨ht', ha'⟩
      have hdivT : j / L < T := by
        have : j / L < T - 1 := (Nat.div_lt_iff_lt_mul hLpos).mpr hcase
        omega
      have hsa : assignedRows H T (j / L) j := by
        constructor
        · exact Nat.div_mul_le_self j L
        · have hne : j / L ≠ T - 1 := by
            have : j / L < T - 1 := (Nat.div_lt_iff_lt_mul hLpos).mpr hcase
            omega
          unfold rowEnd
          rw [if_neg hne]
          exact (Nat.div_lt_iff_lt_mul hLpos).mp (Nat.lt_succ_self _)
      exact assigned_unique H T t' (j / L) j ht' hdivT ha' hsa
  · have hstart : rowStart H T (T - 1) ≤ j := by
      unfold rowStart
      rw [← hL]
      omega
    refine ⟨T - 1, ⟨by omega, hstart, ?_⟩, ?_⟩
    · unfold rowEnd
      rw [if_pos rfl]
      exact hj
    · rintro t' ⟨ht', ha'⟩
      have hlast : assignedRows H T (T - 1) j := by
        refine ⟨hstart, ?_⟩
        unfold rowEnd
        rw [if_pos rfl]
        exact hj
      exact assigned_unique H T t' (T - 1) j ht' (by omega) ha' hlast

/-- Claim C1: for every image height `H ≥ 1` and worker count `T ≥ 1`, the
scheduler's static row partition (worker `t` gets rows
`[t * (H / T), (t + 1) * (H / T))`, except the last worker whose range ends
at `H`) assigns every row index `j < H` to exactly one worker, including
when `T` does not divide `H` and when `T > H`. -/
theorem c1_partition (H T : ℕ) (hH : 1 ≤ H) (hT : 1 ≤ T) :
    ∀ j, j < H → ∃! t, t < T ∧ assignedRows H T t j :=
  partition_exists_unique H T hH hT

/-- Witness for C1 at the spec's example `H = 7`, `T = 3`: row 6 is
assigned to exactly one of the three workers. -/
theorem c1_partition_witness : ∃! t, t < 3 ∧ assignedRows 7 3 t 6 :=
  c1_partition 7 3 (by decide) (by decide) 6 (by decide)

/-! ## C2: a non-positive depth budget yields black -/

theorem ray_color_nonpos (sq : ℚ → ℚ) (r : Ray) (d : ℤ) (w : Hittable)
    (h : d ≤ 0) : ray_color sq r d w = black := by
  unfold ray_color
  rw [if_pos h]

theorem add_black (a : Color) : a + black = a := by
  cases a
  simp [black, Vec3.add_def]

theorem smul_black (q : ℚ) : q • black = black := by
  simp [black, Vec3.smul_def]

theorem foldl_id (l : List ℕ) (f : Color → ℕ → Color) (hf : ∀ a s, f a s = a) :
    ∀ acc : Color, l.foldl f acc = acc := by
  induction l with
  | nil => intro acc; rfl
  | cons s l ih => intro acc; rw [List.foldl_cons, hf]; exact ih acc

/-- Claim C2: for every ray, scene and depth budget `d ≤ 0`, `ray_color`
returns black; consequently, when `max_depth = 0` and
`samples_per_pixel ≥ 1`, every pixel value written to the buffer is
`(0, 0, 0)` regardless of scene contents. -/
theorem c2_depth_zero_black :
    (∀ (sq : ℚ → ℚ) (r : Ray) (d : ℤ) (w : Hittable), d ≤ 0 →
      ray_color sq r d w = black)
    ∧ ∀ (sq : ℚ → ℚ) (cfg : CameraConfig) (st : CameraState) (world : Hittable)
        (rnd : ℕ → SampleDraw) (i j : ℕ), cfg.max_depth = 0 →
        1 ≤ cfg.samples_per_pixel → renderPixel sq cfg st world rnd i j = black := by
  constructor
  · exact ray_color_nonpos
  · intro sq cfg st world rnd i j hdepth _
    unfold renderPixel
    rw [foldl_id _ _ (fun a s => ?_), smul_black]
    rw [ray_color_nonpos sq _ _ _ (by omega), add_black]

/-- A small pinhole configuration with `max_depth = 0` used by witnesses. -/
def testConfig : CameraConfig :=
  ⟨1, 100, 10, 0, 90, ⟨0, 0, 0⟩, ⟨0, 0, -1⟩, ⟨0, 1, 0⟩, 0, 10⟩

/-- Witness for C2: with `max_depth = 0` (and 10 samples per pixel) the
pixel value computed for pixel `(0, 0)` of `testConfig` is black, for any
scene hit behavior (here the empty scene). -/
theorem c2_depth_zero_black_witness :
    ray_color id ⟨⟨0, 0, 0⟩, ⟨0, 0, 1⟩⟩ 0 emptyWorld = black
    ∧ renderPixel id testConfig (initCamera id id testConfig) emptyWorld
        (fun _ => ((0, 0), (0, 0))) 0 0 = black :=
  ⟨c2_depth_zero_black.1 id ⟨⟨0, 0, 0⟩, ⟨0, 0, 1⟩⟩ 0 emptyWorld (by omega),
   c2_depth_zero_black.2 id testConfig (initCamera id id testConfig) emptyWorld
     (fun _ => ((0, 0), (0, 0))) 0 0 rfl (by decide)⟩

/-! ## C3: the recursion of `ray_color` terminates within `depth + 1` calls -/

/-- Claim C3: `ray_color` terminates for every ray, depth budget and scene
(including scenes that always hit with a scattering material): the
gas-metered recursion completes (returns `some`, agreeing with
`ray_color`) whenever it may make `depth.toNat + 1` nested calls, because
each recursive call decreases the depth by exactly one and the function
returns without recursing once the depth is `≤ 0`. -/
theorem c3_termination (sq : ℚ → ℚ) (gas : ℕ) (r : Ray) (d : ℤ) (w : Hittable)
    (h : d.toNat < gas) : rayColorGas sq gas r d w = some (ray_color sq r d w) := by
  induction gas generalizing r d with
  | zero => omega
  | succ g ih =>
    rw [rayColorGas]
    unfold ray_color
    by_cases hd : d ≤ 0
    · rw [if_pos hd, if_pos hd]
    · rw [if_neg hd, if_neg hd]
      rcases hh : w.hit r hitInterval with _ | ⟨rec, mat⟩
      · rfl
      · rcases hs : mat.scatter r rec with _ | ⟨attenuation, scattered⟩
        · simp [hs]
        · simp [hs, ih scattered (d - 1) (by omega)]

/-- A scene whose hit test always reports a hit with a material that
always scatters (a perfect mirror re-emitting the incoming ray); used to
witness termination on the worst case. -/
def alwaysScatterWorld : Hittable :=
  ⟨fun r _ => some (⟨⟨0, 0, 0⟩, ⟨0, 0, 1⟩, 1, true⟩, ⟨fun r' _ => some (⟨1, 1, 1⟩, r')⟩)⟩

/-- Witness for C3: on the always-hit always-scatter scene with depth
budget 3, the recursion completes within 4 nested calls. -/
theorem c3_termination_witness :
    rayColorGas id 4 ⟨⟨0, 0, 0⟩, ⟨0, 0, 1⟩⟩ 3 alwaysScatterWorld
      = some (ray_color id ⟨⟨0, 0, 0⟩, ⟨0, 0, 1⟩⟩ 3 alwaysScatterWorld) :=
  c3_termination id 4 ⟨⟨0, 0, 0⟩, ⟨0, 0, 1⟩⟩ 3 alwaysScatterWorld (by decide)

/-! ## C4: the background gradient on a miss -/

/-- Claim C4: for every ray with depth budget `> 0` whose scene hit test
reports no hit, `ray_color` returns exactly
`(1 - a) * (1,1,1) + a * (0.5, 0.7, 1.0)` with
`a = 0.5 * (y(unit_vector(r.direction)) + 1)`; in particular a scene with
no geometry always yields this background gradient. -/
theorem c4_background (sq : ℚ → ℚ) (r : Ray) (d : ℤ) (w : Hittable)
    (hd : 0 < d) (hmiss : w.hit r hitInterval = none) :
    ray_color sq r d w =
      ((1 : ℚ) - (1 / 2 : ℚ) * ((unitVector sq r.dir).y + 1)) • (⟨1, 1, 1⟩ : Color)
        + ((1 / 2 : ℚ) * ((unitVector sq r.dir).y + 1)) • (⟨1 / 2, 7 / 10, 1⟩ : Color) := by
  unfold ray_color
  rw [if_neg (by omega), hmiss]

/-- Witness for C4: the empty scene misses every ray, so a downward-tilted
ray with depth budget 1 receives the background gradient. -/
theorem c4_background_witness :
    (0 : ℤ) < 1 ∧ emptyWorld.hit ⟨⟨0, 0, 0⟩, ⟨0, -3, -4⟩⟩ hitInterval = none
    ∧ ray_color id ⟨⟨0, 0, 0⟩, ⟨0, -3, -4⟩⟩ 1 emptyWorld =
      ((1 : ℚ) - (1 / 2 : ℚ) * ((unitVector id (⟨0, -3, -4⟩ : Vec3)).y + 1)) • (⟨1, 1, 1⟩ : Color)
        + ((1 / 2 : ℚ) * ((unitVector id (⟨0, -3, -4⟩ : Vec3)).y + 1)) • (⟨1 / 2, 7 / 10, 1⟩ : Color) :=
  ⟨by decide, rfl,
   c4_background id ⟨⟨0, 0, 0⟩, ⟨0, -3, -4⟩⟩ 1 emptyWorld (by decide) rfl⟩

/-! ## C5: the hit test is queried with `[0.001, ∞)` and no other interval -/

theorem rayColorTrace_spec (n : ℕ) : ∀ (sq : ℚ → ℚ) (r : Ray) (d : ℤ)
    (w : Hittable), d.toNat ≤ n →
    (rayColorTrace sq r d w).1 = ray_color sq r d w
    ∧ ∀ I ∈ (rayColorTrace sq r d w).2, I = hitInterval := by
  induction n with
  | zero =>
    intro sq r d w hn
    have hd : d ≤ 0 := by omega
    unfold rayColorTrace ray_color
    rw [if_pos hd, if_pos hd]
    exact ⟨rfl, by intro I hI; simp at hI⟩
  | succ n ih =>
    intro sq r d w hn
    by_cases hd : d ≤ 0
    · unfold rayColorTrace ray_color
      rw [if_pos hd, if_pos hd]
      exact ⟨rfl, by intro I hI; simp at hI⟩
    · have hrec : (d - 1).toNat ≤ n := by omega
      unfold rayColorTrace ray_color
      rw [if_neg hd, if_neg hd]
      rcases hh : w.hit r hitInterval with _ | ⟨rec, mat⟩
      · exact ⟨rfl, by intro I hI; simp at hI; exact hI⟩
      · rcases hs : mat.scatter r rec with _ | ⟨attenuation, scattered⟩
        · refine ⟨by simp [hs], ?_⟩
          intro I hI
          simp [hs] at hI
          exact hI
        · obtain ⟨ihc, ihl⟩ := ih sq scattered (d - 1) w hrec
          refine ⟨by simp [hs, ihc], ?_⟩
          intro I hI
          simp [hs] at hI
          rcases hI with h1 | h2
          · exact h1
          · exact ihl I h2

theorem ray_color_agree (n : ℕ) : ∀ (sq : ℚ → ℚ) (w w' : Hittable),
    (∀ r, w.hit r hitInterval = w'.hit r hitInterval) →
    ∀ (r : Ray) (d : ℤ), d.toNat ≤ n → ray_color sq r d w = ray_color sq r d w' := by
  induction n with
  | zero =>
    intro sq w w' hag r d hn
    rw [ray_color_nonpos sq r d w (by omega), ray_color_nonpos sq r d w' (by omega)]
  | succ n ih =>
    intro sq w w' hag r d hn
    by_cases hd : d ≤ 0
    · rw [ray_color_nonpos sq r d w hd, ray_color_nonpos sq r d w' hd]
    · unfold ray_color
      rw [if_neg hd, if_neg hd, hag r]
      rcases hh : w'.hit r hitInterval with _ | ⟨rec, mat⟩
      · rfl
      · rcases hs : mat.scatter r rec with _ | ⟨attenuation, scattered⟩
        · simp [hs]
        · simp [hs, ih sq w w' hag scattered (d - 1) (by omega)]

/-- Claim C5: for every ray with positive depth budget the integrator
queries the scene's hit test with the interval `[0.001, ∞)` — lower bound
exactly `0.001`, upper bound unbounded — and with no other interval
anywhere in the recursion: every interval the instrumented recursion
passes to the hit test is `hitInterval`, and two scenes whose hit tests
agree on `hitInterval` queries are indistinguishable to `ray_color`. -/
theorem c5_hit_interval :
    hitInterval = ⟨1 / 1000, ⊤⟩
    ∧ (∀ (sq : ℚ → ℚ) (r : Ray) (d : ℤ) (w : Hittable),
        (rayColorTrace sq r d w).1 = ray_color sq r d w
        ∧ ∀ I ∈ (rayColorTrace sq r d w).2, I = hitInterval)
    ∧ ∀ (sq : ℚ → ℚ) (w w' : Hittable),
        (∀ r, w.hit r hitInterval = w'.hit r hitInterval) →
        ∀ (r : Ray) (d : ℤ), ray_color sq r d w = ray_color sq r d w' :=
  ⟨rfl,
   fun sq r d w => rayColorTrace_spec d.toNat sq r d w le_rfl,
   fun sq w w' hag r d => ray_color_agree d.toNat sq w w' hag r d le_rfl⟩

/-- A scene that reports a hit only when queried with an interval other
than `hitInterval`; it answers the integrator's queries exactly like the
empty scene. -/
def offIntervalWorld : Hittable :=
  ⟨fun _ I => if I = hitInterval then none
    else some (⟨⟨0, 0, 0⟩, ⟨0, 0, 1⟩, 1, true⟩, ⟨fun _ _ => none⟩)⟩

/-- Witness for C5: `offIntervalWorld` differs from the empty scene on
every interval except `hitInterval`, yet `ray_color` cannot tell them
apart — so the recursion never queries any other interval. -/
theorem c5_hit_interval_witness :
    ray_color id ⟨⟨0, 0, 0⟩, ⟨0, 0, 1⟩⟩ 5 emptyWorld
      = ray_color id ⟨⟨0, 0, 0⟩, ⟨0, 0, 1⟩⟩ 5 offIntervalWorld :=
  c5_hit_interval.2.2 id emptyWorld offIntervalWorld
    (fun r => by simp [emptyWorld, offIntervalWorld]) ⟨⟨0, 0, 0⟩, ⟨0, 0, 1⟩⟩ 5

/-! ## C6: the defocus disk under `defocus_angle <= 0`

The claim fails for strictly negative angles: `initialize` computes
`defocus_radius = focus_dist * tan(degrees_to_radians(defocus_angle / 2))`
unconditionally, and the tangent of a negative angle is negative, not
zero, so the disk basis vectors are nonzero (the real
`std::tan(degrees_to_radians(-0.5)) ≈ -0.0087`; the counterexample
instantiates the tangent parameter with the identity function, which like
the real tangent vanishes at `0` and is nonzero at the queried point). -/

/-- `testConfig` with `defocus_angle = -1`. -/
def negAngleConfig : CameraConfig :=
  ⟨1, 100, 10, 0, 90, ⟨0, 0, 0⟩, ⟨0, 0, -1⟩, ⟨0, 1, 0⟩, -1, 10⟩

/-- Counterexample to C6 as stated: a configuration with
`defocus_angle = -1 ≤ 0` whose derived `defocus_disk_u` is not the zero
vector. -/
theorem c6_counterexample :
    negAngleConfig.defocus_angle ≤ 0
    ∧ (initCamera id id negAngleConfig).defocus_disk_u ≠ ⟨0, 0, 0⟩ := by
  constructor
  · norm_num [negAngleConfig]
  · intro h
    have hx := congrArg Vec3.x h
    norm_num [initCamera, negAngleConfig, unitVector, vdiv, dot, cross,
      degrees_to_radians, piConst, Vec3.smul_def, Vec3.sub_def] at hx

/-- Claim C6 (amended): after `initialize`, the defocus-disk basis vectors
are both zero when `defocus_angle = 0` (given that the tangent vanishes at
zero, as the real tangent does); and for every `defocus_angle ≤ 0` the
generated rays originate at the camera center, so the camera is a pinhole
camera and the disk vectors are never used. -/
theorem c6_pinhole (sq tn : ℚ → ℚ) (cfg : CameraConfig) (htn : tn 0 = 0) :
    (cfg.defocus_angle = 0 →
      (initCamera sq tn cfg).defocus_disk_u = ⟨0, 0, 0⟩
      ∧ (initCamera sq tn cfg).defocus_disk_v = ⟨0, 0, 0⟩)
    ∧ (cfg.defocus_angle ≤ 0 → ∀ (st : CameraState) (i j : ℕ) (d : SampleDraw),
        (get_ray cfg st i j d).orig = st.center) := by
  constructor
  · intro hangle
    unfold initCamera
    constructor
    · simp [hangle, degrees_to_radians, htn, Vec3.smul_def]
    · simp [hangle, degrees_to_radians, htn, Vec3.smul_def]
  · intro hangle st i j d
    unfold get_ray
    rw [if_pos hangle]

/-- Witness for C6 (amended): `testConfig` has `defocus_angle = 0`; both
disk vectors are zero and the sampled ray origin is the camera center. -/
theorem c6_pinhole_witness :
    ((initCamera id id testConfig).defocus_disk_u = ⟨0, 0, 0⟩
      ∧ (initCamera id id testConfig).defocus_disk_v = ⟨0, 0, 0⟩)
    ∧ (get_ray testConfig (initCamera id id testConfig) 0 0 ((0, 0), (1, 1))).orig
        = (initCamera id id testConfig).center :=
  ⟨(c6_pinhole id id testConfig rfl).1 rfl,
   (c6_pinhole id id testConfig rfl).2 (by norm_num [testConfig])
     (initCamera id id testConfig) 0 0 ((0, 0), (1, 1))⟩

/-! ## Plumbing for the event-trace model -/

/-- If `p` selects only events selected by `q`, filtering a trace by `p`
factors through its `q`-subsequence. -/
theorem filter_sub (tr m : List Ev) (p q : Ev → Bool) (hv : tr.filter q = m)
    (hp : ∀ e, p e = true → q e = true) : tr.filter p = m.filter p := by
  have h1 : tr.filter p = tr.filter (fun e => p e && q e) := by
    apply List.filter_congr'
    intro x _
    cases hpe : p x
    · rfl
    · simp [hp x hpe]
  rw [h1, ← List.filter_filter, hv]

theorem countP_sub (tr m : List Ev) (p q : Ev → Bool) (hv : tr.filter q = m)
    (hp : ∀ e, p e = true → q e = true) : tr.countP p = m.countP p := by
  rw [List.countP_eq_length_filter, List.countP_eq_length_filter,
    filter_sub tr m p q hv hp]

theorem count_sub (tr m : List Ev) (a : Ev) (q : Ev → Bool) (hv : tr.filter q = m)
    (ha : q a = true) : tr.count a = m.count a := by
  unfold List.count
  apply countP_sub tr m _ q hv
  intro e he
  have : e = a := by simpa using he
  rw [this]
  exact ha

theorem filter_map_true {α : Type} (l : List α) (f : α → Ev) (p : Ev → Bool)
    (h : ∀ a, p (f a) = true) : (l.map f).filter p = l.map f :=
  List.filter_eq_self.mpr (by
    intro x hx
    obtain ⟨a, _, rfl⟩ := List.mem_map.mp hx
    exact h a)

theorem filter_map_false {α : Type} (l : List α) (f : α → Ev) (p : Ev → Bool)
    (h : ∀ a, p (f a) = false) : (l.map f).filter p = [] :=
  List.filter_eq_nil_iff.mpr (by
    intro x hx
    obtain ⟨a, _, rfl⟩ := List.mem_map.mp hx
    simp [h a])

theorem count_flatMap (a : Ev) (l : List ℕ) (f : ℕ → List Ev) :
    (l.flatMap f).count a = (l.map fun b => (f b).count a).sum := by
  induction l with
  | nil => rfl
  | cons x l ih => simp [List.flatMap_cons, List.count_append, ih]

theorem countP_flatMap (p : Ev → Bool) (l : List ℕ) (f : ℕ → List Ev) :
    (l.flatMap f).countP p = (l.map fun b => (f b).countP p).sum := by
  induction l with
  | nil => rfl
  | cons x l ih => simp [List.flatMap_cons, List.countP_append, ih]

theorem filter_flatMap_single (p : Ev → Bool) (l : List ℕ) (f : ℕ → List Ev)
    (j : ℕ) (hl : l.Nodup) (hj : ∀ j' ∈ l, j' ≠ j → (f j').filter p = [])
    (hjj : (f j).filter p = f j) :
    (l.flatMap f).filter p = if j ∈ l then f j else [] := by
  induction l with
  | nil => rfl
  | cons x l ih =>
    rw [List.flatMap_cons, List.filter_append]
    by_cases hx : x = j
    · subst hx
      rw [hjj, if_pos (List.mem_cons_self x l)]
      have hnx : x ∉ l := (List.nodup_cons.mp hl).1
      have : (l.flatMap f).filter p = [] := by
        rw [ih (List.nodup_cons.mp hl).2 (fun j' hj' => hj j' (List.mem_cons_of_mem x hj'))]
        rw [if_neg hnx]
      rw [this, List.append_nil]
    · rw [hj x (List.mem_cons_self x l) hx,
        ih (List.nodup_cons.mp hl).2 (fun j' hj' => hj j' (List.mem_cons_of_mem x hj')),
        List.nil_append]
      by_cases hjl : j ∈ l
      · rw [if_pos hjl, if_pos (List.mem_cons_of_mem x hjl)]
      · rw [if_neg hjl, if_neg (by simp [hx, hjl, Ne.symm hx])]

/-- Splitting a count of worker-only events across the `T` workers. -/
theorem countP_eq_sum_workers (T : ℕ) (p : Ev → Bool)
    (hp : ∀ e, p e = true → isMainEv e = false) (tr : List Ev)
    (h3 : ∀ e ∈ tr, isMainEv e = true ∨ ∃ t, t < T ∧ evWorker e = some t) :
    tr.countP p = ∑ t ∈ Finset.range T, tr.countP (fun e => p e && belongsTo t e) := by
  induction tr with
  | nil => simp
  | cons e tr ih =>
    have h3' : ∀ x ∈ tr, isMainEv x = true ∨ ∃ t, t < T ∧ evWorker x = some t :=
      fun x hx => h3 x (List.mem_cons_of_mem e hx)
    rw [List.countP_cons]
    have hsum : ∀ t, (e :: tr).countP (fun x => p x && belongsTo t x)
        = tr.countP (fun x => p x && belongsTo t x)
          + if (p e && belongsTo t e) then 1 else 0 :=
      fun t => List.countP_cons _ e tr
    calc tr.countP p + (if p e then 1 else 0)
        = (∑ t ∈ Finset.range T, tr.countP (fun x => p x && belongsTo t x))
          + (if p e then 1 else 0) := by rw [ih h3']
      _ = ∑ t ∈ Finset.range T, ((e :: tr).countP (fun x => p x && belongsTo t x)) := by
          rw [Finset.sum_congr rfl (fun t _ => hsum t), Finset.sum_add_distrib]
          congr 1
          cases hpe : p e
          · simp
          · rcases h3 e (List.mem_cons_self e tr) with hmain | ⟨t0, ht0, hw⟩
            · rw [hp e hpe] at hmain
              exact absurd hmain (by simp)
            · have hb : ∀ t, belongsTo t e = (t0 == t) := by
                intro t
                cases e with
                | dec t' j' =>
                  have : t' = t0 := by simpa [evWorker] using hw
                  subst this
                  rfl
                | store t' i' j' =>
                  have : t' = t0 := by simpa [evWorker] using hw
                  subst this
                  rfl
                | header => simp [evWorker] at hw
                | spawn t' => simp [evWorker] at hw
                | join t' => simp [evWorker] at hw
                | emit k => simp [evWorker] at hw
              have : ∀ t, (if (true && belongsTo t e) then 1 else 0)
                  = if t0 = t then 1 else 0 := by
                intro t
                rw [hb t]
                by_cases h : t0 = t <;> simp [h]
              rw [Finset.sum_congr rfl (fun t _ => this t),
                Finset.sum_ite_eq (Finset.range T) t0 (fun _ => 1)]
              simp [ht0]

/-! ## Worker-trace computations -/

theorem sum_map_ite (l : List ℕ) (j : ℕ) (hl : l.Nodup) :
    (l.map fun j' => if j' = j then 1 else 0).sum = if j ∈ l then 1 else 0 := by
  induction l with
  | nil => rfl
  | cons x l ih =>
    rw [List.map_cons, List.sum_cons, ih (List.nodup_cons.mp hl).2]
    by_cases hx : x = j
    · subst hx
      rw [if_pos rfl, if_pos (List.mem_cons_self x l),
        if_neg (List.nodup_cons.mp hl).1]
    · rw [if_neg hx]
      by_cases hjl : j ∈ l
      · rw [if_pos hjl, if_pos (List.mem_cons_of_mem x hjl)]
      · rw [if_neg hjl, if_neg (by simp [Ne.symm hx, hjl])]

theorem rowEvents_count_dec (W t j j' : ℕ) :
    (rowEvents W t j').count (Ev.dec t j) = if j' = j then 1 else 0 := by
  unfold rowEvents
  rw [List.count_cons]
  have hz : ((List.range W).map fun i => Ev.store t i j').count (Ev.dec t j) = 0 := by
    apply List.count_eq_zero.mpr
    intro hmem
    obtain ⟨i, _, h⟩ := List.mem_map.mp hmem
    exact absurd h (by simp)
  rw [hz]
  by_cases h : j' = j <;> simp [h]

theorem range'_row_mem (H T t j : ℕ) (hT : 1 ≤ T) (ht : t < T) :
    j ∈ List.range' (rowStart H T t) (rowEnd H T t - rowStart H T t)
      ↔ assignedRows H T t j := by
  rw [List.mem_range'_1]
  unfold assignedRows
  have := rowStart_le_rowEnd H T t hT ht
  omega

theorem workerTrace_count_dec (W H T t j : ℕ) (hT : 1 ≤ T) (ht : t < T) :
    (workerTrace W H T t).count (Ev.dec t j)
      = if assignedRows H T t j then 1 else 0 := by
  unfold workerTrace
  rw [count_flatMap]
  have : ∀ j', ((fun b => (rowEvents W t b).count (Ev.dec t j)) j')
      = (fun j' => if j' = j then 1 else 0) j' := fun j' => rowEvents_count_dec W t j j'
  rw [List.map_congr_left (fun j' _ => this j'),
    sum_map_ite _ j (List.nodup_range' _ _),
    if_congr (range'_row_mem H T t j hT ht) rfl rfl]

theorem rowEvents_countP_dec (W t j' : ℕ) :
    (rowEvents W t j').countP isDec = 1 := by
  unfold rowEvents
  rw [List.countP_cons]
  have hz : ((List.range W).map fun i => Ev.store t i j').countP isDec = 0 := by
    apply List.countP_eq_zero.mpr
    intro e he
    obtain ⟨i, _, rfl⟩ := List.mem_map.mp he
    simp [isDec]
  rw [hz]
  simp [isDec]

theorem workerTrace_countP_dec (W H T t : ℕ) :
    (workerTrace W H T t).countP isDec = rowEnd H T t - rowStart H T t := by
  unfold workerTrace
  rw [countP_flatMap]
  have : ∀ j' ∈ List.range' (rowStart H T t) (rowEnd H T t - rowStart H T t),
      (rowEvents W t j').countP isDec = (fun _ => 1) j' :=
    fun j' _ => rowEvents_countP_dec W t j'
  rw [List.map_congr_left this, List.map_const', List.sum_replicate, smul_eq_mul,
    mul_one, List.length_range']

theorem sum_row_sizes (H T : ℕ) (hT : 1 ≤ T) :
    ∑ t ∈ Finset.range T, (rowEnd H T t - rowStart H T t) = H := by
  obtain ⟨S, rfl⟩ : ∃ S, T = S + 1 := ⟨T - 1, by omega⟩
  rw [Finset.sum_range_succ]
  have hmid : ∀ t ∈ Finset.range S,
      rowEnd H (S + 1) t - rowStart H (S + 1) t = lines_per_thread H (S + 1) := by
    intro t ht
    have htS : t < S := Finset.mem_range.mp ht
    unfold rowEnd rowStart
    rw [if_neg (by omega)]
    rw [Nat.succ_mul]
    omega
  rw [Finset.sum_congr rfl hmid, Finset.sum_const, Finset.card_range, smul_eq_mul]
  have hlast1 : rowEnd H (S + 1) S = H := by unfold rowEnd; rw [if_pos (by omega)]
  have hlast2 : rowStart H (S + 1) S = S * lines_per_thread H (S + 1) := rfl
  have hle : (S + 1) * lines_per_thread H (S + 1) ≤ H := by
    unfold lines_per_thread
    rw [mul_comm]
    exact Nat.div_mul_le_self H (S + 1)
  rw [hlast1, hlast2]
  rw [Nat.succ_mul] at hle
  omega

theorem rowEvents_filter_rowEvBy_self (W t j : ℕ) :
    (rowEvents W t j).filter (rowEvBy t j) = rowEvents W t j := by
  apply List.filter_eq_self.mpr
  intro e he
  unfold rowEvents at he
  rcases List.mem_cons.mp he with rfl | hs
  · simp [rowEvBy]
  · obtain ⟨i, _, rfl⟩ := List.mem_map.mp hs
    simp [rowEvBy]

theorem rowEvents_filter_rowEvBy_other (W t j j' : ℕ) (h : j' ≠ j) :
    (rowEvents W t j').filter (rowEvBy t j) = [] := by
  apply List.filter_eq_nil_iff.mpr
  intro e he
  unfold rowEvents at he
  rcases List.mem_cons.mp he with rfl | hs
  · simp [rowEvBy, h]
  · obtain ⟨i, _, rfl⟩ := List.mem_map.mp hs
    simp [rowEvBy, h]

theorem workerTrace_filter_rowEvBy (W H T t j : ℕ) (hT : 1 ≤ T) (ht : t < T) :
    (workerTrace W H T t).filter (rowEvBy t j)
      = if assignedRows H T t j then rowEvents W t j else [] := by
  unfold workerTrace
  rw [filter_flatMap_single (rowEvBy t j) _ (rowEvents W t) j (List.nodup_range' _ _)
      (fun j' _ hj' => rowEvents_filter_rowEvBy_other W t j j' hj')
      (rowEvents_filter_rowEvBy_self W t j),
    if_congr (range'_row_mem H T t j hT ht) rfl rfl]

theorem rowEvents_countP_decRow (W t j j' : ℕ) :
    (rowEvents W t j').countP (isDecRow j) = if j' = j then 1 else 0 := by
  unfold rowEvents
  rw [List.countP_cons]
  have hz : ((List.range W).map fun i => Ev.store t i j').countP (isDecRow j) = 0 := by
    apply List.countP_eq_zero.mpr
    intro e he
    obtain ⟨i, _, rfl⟩ := List.mem_map.mp he
    simp [isDecRow]
  rw [hz]
  by_cases h : j' = j <;> simp [isDecRow, h]

theorem workerTrace_countP_decRow (W H T t j : ℕ) (hT : 1 ≤ T) (ht : t < T) :
    (workerTrace W H T t).countP (isDecRow j)
      = if assignedRows H T t j then 1 else 0 := by
  unfold workerTrace
  rw [countP_flatMap]
  have : ∀ j' ∈ List.range' (rowStart H T t) (rowEnd H T t - rowStart H T t),
      (rowEvents W t j').countP (isDecRow j) = (fun j' => if j' = j then 1 else 0) j' :=
    fun j' _ => rowEvents_countP_decRow W t j j'
  rw [List.map_congr_left this, sum_map_ite _ j (List.nodup_range' _ _),
    if_congr (range'_row_mem H T t j hT ht) rfl rfl]

/-- Stripping the spawn and join brackets off a worker's subsequence, for
predicates false on spawn and join events. -/
theorem countP_strip (t : ℕ) (wt : List Ev) (p : Ev → Bool)
    (hsp : p (Ev.spawn t) = false) (hjn : p (Ev.join t) = false) :
    (Ev.spawn t :: (wt ++ [Ev.join t])).countP p = wt.countP p := by
  rw [List.countP_cons, List.countP_append, List.countP_cons]
  simp [hsp, hjn]

theorem filter_strip (t : ℕ) (wt : List Ev) (p : Ev → Bool)
    (hsp : p (Ev.spawn t) = false) (hjn : p (Ev.join t) = false) :
    (Ev.spawn t :: (wt ++ [Ev.join t])).filter p = wt.filter p := by
  rw [List.filter_cons, List.filter_append, List.filter_cons]
  simp [hsp, hjn]

theorem count_strip (t : ℕ) (wt : List Ev) (a : Ev)
    (hsp : (Ev.spawn t == a) = false) (hjn : (Ev.join t == a) = false) :
    (Ev.spawn t :: (wt ++ [Ev.join t])).count a = wt.count a := by
  rw [List.count_cons, List.count_append, List.count_cons, List.count_nil]
  simp [hsp, hjn]

theorem isDec_not_main (e : Ev) (he : isDec e = true) : isMainEv e = false := by
  cases e <;> first | rfl | exact absurd he (by simp [isDec])

theorem isDecRow_not_main (j : ℕ) (e : Ev) (he : isDecRow j e = true) :
    isMainEv e = false := by
  cases e <;> first | rfl | exact absurd he (by simp [isDecRow])

theorem rowEvBy_belongsTo (t j : ℕ) (e : Ev) (he : rowEvBy t j e = true) :
    belongsTo t e = true := by
  cases e with
  | dec t' j' =>
    simp only [rowEvBy, Bool.and_eq_true] at he
    simpa [belongsTo] using he.1
  | store t' i' j' =>
    simp only [rowEvBy, Bool.and_eq_true] at he
    simpa [belongsTo] using he.1
  | header => exact absurd he (by simp [rowEvBy])
  | spawn t' => exact absurd he (by simp [rowEvBy])
  | join t' => exact absurd he (by simp [rowEvBy])
  | emit k => exact absurd he (by simp [rowEvBy])

/-- Exactly one worker's indicator fires for each row. -/
theorem sum_assigned_indicator (H T j : ℕ) (hj : j < H) (hT : 1 ≤ T) :
    (∑ t ∈ Finset.range T, if assignedRows H T t j then 1 else 0) = 1 := by
  obtain ⟨t0, ⟨ht0, ha0⟩, huniq⟩ :=
    partition_exists_unique H T (by omega) hT j hj
  have hcongr : ∀ t ∈ Finset.range T,
      (if assignedRows H T t j then 1 else 0) = if t = t0 then 1 else 0 := by
    intro t ht
    by_cases h : assignedRows H T t j
    · rw [if_pos h, if_pos (huniq t ⟨Finset.mem_range.mp ht, h⟩)]
    · rw [if_neg h, if_neg]
      intro heq
      subst heq
      exact h ha0
  rw [Finset.sum_congr rfl hcongr,
    Finset.sum_ite_eq' (Finset.range T) t0 (fun _ => 1)]
  simp [ht0]

/-! ## C7: the remaining-scanline counter -/

/-- Counterexample to C7 as stated: in the valid sequential trace of a
1×1 render with one worker, the decrement of row 0 happens before the
store of the row's only pixel — the claimed order (stores of the row, then
its decrement) does not hold. -/
theorem c7_counterexample :
    ¬ (∀ tr, ValidTrace 1 1 1 tr →
        tr.filter (rowEvBy 0 0)
          = ((List.range 1).map fun i => Ev.store 0 i 0) ++ [Ev.dec 0 0]) :=
  fun h => absurd (h seqTrace1 (by decide)) (by decide)

/-- Claim C7 (amended): in every valid trace the remaining-scanline
counter starts at the row count `H`, each row `j < H` is decremented
exactly once over the whole render, namely by the worker the row is
assigned to, the counter never increases and stays within `[0, H]` — but
the decrement for a row happens when its worker begins the row, before
that row's pixels are stored (the row's event subsequence is its decrement
followed by its stores). -/
theorem c7_progress_counter (W H T : ℕ) (tr : List Ev) (hT : 1 ≤ T)
    (hv : ValidTrace W H T tr) :
    scanlinesRemaining H [] = (H : ℤ)
    ∧ (∀ j, j < H → tr.countP (isDecRow j) = 1)
    ∧ (∀ t j, t < T → tr.count (Ev.dec t j) = if assignedRows H T t j then 1 else 0)
    ∧ tr.countP isDec = H
    ∧ (∀ pre suf, tr = pre ++ suf →
        0 ≤ scanlinesRemaining H pre ∧ scanlinesRemaining H pre ≤ (H : ℤ))
    ∧ (∀ pre mid suf, tr = pre ++ mid ++ suf →
        scanlinesRemaining H (pre ++ mid) ≤ scanlinesRemaining H pre)
    ∧ (∀ t j, t < T → assignedRows H T t j →
        tr.filter (rowEvBy t j) = Ev.dec t j :: (List.range W).map fun i => Ev.store t i j) := by
  obtain ⟨hv1, hv2, hv3⟩ := hv
  have hworker : ∀ t, t < T → ∀ p : Ev → Bool,
      p (Ev.spawn t) = false → p (Ev.join t) = false →
      (∀ e, p e = true → belongsTo t e = true) →
      tr.countP p = (workerTrace W H T t).countP p := by
    intro t ht p hsp hjn hp
    rw [countP_sub tr _ p (belongsTo t) (hv2 t ht) hp, countP_strip t _ p hsp hjn]
  have htotal : tr.countP isDec = H := by
    rw [countP_eq_sum_workers T isDec isDec_not_main tr hv3]
    have hper : ∀ t ∈ Finset.range T,
        tr.countP (fun e => isDec e && belongsTo t e)
          = rowEnd H T t - rowStart H T t := by
      intro t ht
      rw [← List.countP_filter, hv2 t (Finset.mem_range.mp ht),
        countP_strip t _ isDec rfl rfl, workerTrace_countP_dec]
    rw [Finset.sum_congr rfl hper, sum_row_sizes H T hT]
  refine ⟨by simp [scanlinesRemaining], ?_, ?_, htotal, ?_, ?_, ?_⟩
  · intro j hj
    rw [countP_eq_sum_workers T (isDecRow j) (isDecRow_not_main j) tr hv3]
    have hper : ∀ t ∈ Finset.range T,
        tr.countP (fun e => isDecRow j e && belongsTo t e)
          = if assignedRows H T t j then 1 else 0 := by
      intro t ht
      rw [← List.countP_filter, hv2 t (Finset.mem_range.mp ht),
        countP_strip t _ (isDecRow j) rfl rfl,
        workerTrace_countP_decRow W H T t j hT (Finset.mem_range.mp ht)]
    rw [Finset.sum_congr rfl hper, sum_assigned_indicator H T j hj hT]
  · intro t j ht
    rw [count_sub tr _ (Ev.dec t j) (belongsTo t) (hv2 t ht) (by simp [belongsTo]),
      count_strip t _ _ (by simp) (by simp),
      workerTrace_count_dec W H T t j hT ht]
  · intro pre suf htr
    subst htr
    have := List.countP_append isDec pre suf
    unfold scanlinesRemaining
    rw [List.countP_append] at htotal
    omega
  · intro pre mid suf htr
    unfold scanlinesRemaining
    rw [List.countP_append]
    omega
  · intro t j ht hassigned
    rw [filter_sub tr _ (rowEvBy t j) (belongsTo t) (hv2 t ht) (rowEvBy_belongsTo t j),
      filter_strip t _ (rowEvBy t j) rfl rfl,
      workerTrace_filter_rowEvBy W H T t j hT ht, if_pos hassigned]
    rfl

/-- Witness for C7 (amended) on the sequential 1×1 trace with one
worker. -/
theorem c7_progress_counter_witness :
    scanlinesRemaining 1 [] = 1
    ∧ seqTrace1.countP isDec = 1
    ∧ seqTrace1.filter (rowEvBy 0 0)
        = Ev.dec 0 0 :: (List.range 1).map (fun i => Ev.store 0 i 0) :=
  have h := c7_progress_counter 1 1 1 seqTrace1 (by decide) (by decide)
  ⟨h.1, h.2.2.2.1, h.2.2.2.2.2.2 0 0 (by decide) (by decide)⟩

/-! ## C8: ordering of the image output stream -/

theorem joinEmit_main (e : Ev) (he : (isJoin e || isEmit e) = true) :
    isMainEv e = true := by
  cases e <;> first | rfl | exact absurd he (by simp [isJoin, isEmit])

theorem headerJoin_main (e : Ev) (he : (e == Ev.header || isJoin e) = true) :
    isMainEv e = true := by
  cases e <;> first | rfl | exact absurd he (by simp [isJoin])

theorem emit_main (e : Ev) (he : isEmit e = true) : isMainEv e = true := by
  cases e <;> first | rfl | exact absurd he (by simp [isEmit])

theorem mainOrder_filter_joinEmit (W H T : ℕ) :
    (mainOrder W H T).filter (fun e => isJoin e || isEmit e)
      = (List.range T).map Ev.join ++ (List.range (W * H)).map Ev.emit := by
  unfold mainOrder
  rw [List.filter_cons, List.filter_append, List.filter_append,
    filter_map_false (List.range T) Ev.spawn _ (fun a => rfl),
    filter_map_true (List.range T) Ev.join _ (fun a => rfl),
    filter_map_true (List.range (W * H)) Ev.emit _ (fun a => rfl)]
  simp [isJoin, isEmit]

theorem mainOrder_filter_headerJoin (W H T : ℕ) :
    (mainOrder W H T).filter (fun e => e == Ev.header || isJoin e)
      = Ev.header :: (List.range T).map Ev.join := by
  unfold mainOrder
  rw [List.filter_cons, List.filter_append, List.filter_append,
    filter_map_false (List.range T) Ev.spawn _ (fun a => rfl),
    filter_map_true (List.range T) Ev.join _ (fun a => rfl),
    filter_map_false (List.range (W * H)) Ev.emit _ (fun a => rfl)]
  simp [isJoin]

theorem mainOrder_filter_emit (W H T : ℕ) :
    (mainOrder W H T).filter isEmit = (List.range (W * H)).map Ev.emit := by
  unfold mainOrder
  rw [List.filter_cons, List.filter_append, List.filter_append,
    filter_map_false (List.range T) Ev.spawn _ (fun a => rfl),
    filter_map_false (List.range T) Ev.join _ (fun a => rfl),
    filter_map_true (List.range (W * H)) Ev.emit _ (fun a => rfl)]
  simp [isEmit]

/-- Counterexample to C8 as stated: the PPM header is written to standard
output at the top of `render` (camera.h line 33), before the workers are
spawned, let alone joined.  In the valid sequential 1×1 trace the
subsequence of stdout writes and joins is `header, join, emit`, not
`join, header, emit` as the claim (all image-stream writes after all
joins) would require. -/
theorem c8_counterexample :
    ¬ (∀ tr, ValidTrace 1 1 1 tr →
        tr.filter (fun e => isStdoutWrite e || isJoin e)
          = (List.range 1).map Ev.join ++ Ev.header :: (List.range 1).map Ev.emit) :=
  fun h => absurd (h seqTrace1 (by decide)) (by decide)

/-- Claim C8 (amended): in every valid trace all pixel-line writes to the
image output stream happen only after every worker has been joined — the
subsequence of joins and emissions is all the joins followed by all the
emissions, so no partial pixel data can be observed — but the PPM header
is written before the workers are joined: the subsequence of header and
joins starts with the header. -/
theorem c8_output_after_joins (W H T : ℕ) (tr : List Ev)
    (hv : ValidTrace W H T tr) :
    tr.filter (fun e => isJoin e || isEmit e)
      = (List.range T).map Ev.join ++ (List.range (W * H)).map Ev.emit
    ∧ tr.filter (fun e => e == Ev.header || isJoin e)
      = Ev.header :: (List.range T).map Ev.join := by
  obtain ⟨hv1, hv2, hv3⟩ := hv
  constructor
  · rw [filter_sub tr _ _ isMainEv hv1 joinEmit_main, mainOrder_filter_joinEmit]
  · rw [filter_sub tr _ _ isMainEv hv1 headerJoin_main, mainOrder_filter_headerJoin]

/-- Witness for C8 (amended) on the sequential 1×1 trace. -/
theorem c8_output_after_joins_witness :
    seqTrace1.filter (fun e => isJoin e || isEmit e)
      = (List.range 1).map Ev.join ++ (List.range (1 * 1)).map Ev.emit
    ∧ seqTrace1.filter (fun e => e == Ev.header || isJoin e)
      = Ev.header :: (List.range 1).map Ev.join :=
  c8_output_after_joins 1 1 1 seqTrace1 (by decide)

/-! ## C10: the shared pixel buffer -/

theorem flatIndex_inj (W i i' j j' : ℕ) (hi : i < W) (hi' : i' < W)
    (h : j * W + i = j' * W + i') : i = i' ∧ j = j' := by
  rcases Nat.lt_trichotomy j j' with hj | hj | hj
  · have hm : (j + 1) * W ≤ j' * W := Nat.mul_le_mul_right W (by omega)
    rw [Nat.add_mul, one_mul] at hm
    omega
  · subst hj
    omega
  · have hm : (j' + 1) * W ≤ j * W := Nat.mul_le_mul_right W (by omega)
    rw [Nat.add_mul, one_mul] at hm
    omega

theorem flatIndex_lt (W H i j : ℕ) (hi : i < W) (hj : j < H) :
    j * W + i < W * H := by
  have h1 : (j + 1) * W ≤ H * W := Nat.mul_le_mul_right W (by omega)
  rw [Nat.add_mul, one_mul] at h1
  rw [mul_comm W H]
  omega

theorem applyEvent_length (W : ℕ) (pv : ℕ → ℕ → Color) (buf : List Color)
    (e : Ev) : (applyEvent W pv buf e).length = buf.length := by
  cases e <;> simp [applyEvent]

theorem applyTrace_length (W : ℕ) (pv : ℕ → ℕ → Color) :
    ∀ (l : List Ev) (buf : List Color),
      (applyTrace W pv l buf).length = buf.length := by
  intro l
  induction l with
  | nil => intro buf; rfl
  | cons e l ih =>
    intro buf
    unfold applyTrace at ih ⊢
    rw [List.foldl_cons, ih, applyEvent_length]

/-- The value the buffer holds at the cell of pixel `(i, j)` after a batch
of events: the pixel's color if some worker stored it, the previous
content otherwise.  Each store writes the color its pixel's worker
computed, and distinct pixels use distinct cells. -/
theorem applyTrace_getElem (W H : ℕ) (pv : ℕ → ℕ → Color) (i j : ℕ)
    (hi : i < W) (hj : j < H) :
    ∀ (l : List Ev) (buf : List Color), buf.length = W * H →
      (∀ t' i' j', Ev.store t' i' j' ∈ l → i' < W) →
      (applyTrace W pv l buf)[j * W + i]?
        = if l.any (isStoreAt i j) then some (pv i j) else buf[j * W + i]? := by
  intro l
  induction l with
  | nil => intro buf _ _; rfl
  | cons e l ih =>
    intro buf hlen hst
    have hstep : applyTrace W pv (e :: l) buf = applyTrace W pv l (applyEvent W pv buf e) :=
      rfl
    have hst' : ∀ t' i' j', Ev.store t' i' j' ∈ l → i' < W :=
      fun t' i' j' hmem => hst t' i' j' (List.mem_cons_of_mem e hmem)
    cases e with
    | store t' i' j' =>
      have hi' : i' < W := hst t' i' j' (List.mem_cons_self _ _)
      by_cases hij : i' = i ∧ j' = j
      · obtain ⟨rfl, rfl⟩ := hij
        have hidx : j' * W + i' < buf.length := by
          rw [hlen]; exact flatIndex_lt W H i' j' hi hj
        rw [hstep]
        have happ : applyEvent W pv buf (Ev.store t' i' j')
            = buf.set (j' * W + i') (pv i' j') := rfl
        rw [happ, ih _ (by rw [List.length_set]; exact hlen) hst']
        have hany : (Ev.store t' i' j' :: l).any (isStoreAt i' j') = true := by
          simp [List.any_cons, isStoreAt]
        rw [hany, if_pos rfl]
        by_cases hl : l.any (isStoreAt i' j') = true
        · rw [if_pos hl]
        · rw [if_neg hl, List.getElem?_set_eq hidx]
      · have hne : j' * W + i' ≠ j * W + i := by
          intro heq
          exact hij (flatIndex_inj W i' i j' j hi' hi heq)
        rw [hstep]
        have happ : applyEvent W pv buf (Ev.store t' i' j')
            = buf.set (j' * W + i') (pv i' j') := rfl
        rw [happ, ih _ (by rw [List.length_set]; exact hlen) hst',
          List.getElem?_set_ne hne]
        have hhead : isStoreAt i j (Ev.store t' i' j') = false := by
          simp only [isStoreAt]
          rcases Decidable.not_and_iff_or_not.mp hij with h | h <;> simp [h]
        rw [List.any_cons, hhead, Bool.false_or]
    | header => rw [hstep]; exact ih _ hlen hst'
    | spawn t' => rw [hstep]; exact ih _ hlen hst'
    | dec t' j' => rw [hstep]; exact ih _ hlen hst'
    | join t' => rw [hstep]; exact ih _ hlen hst'
    | emit k => rw [hstep]; exact ih _ hlen hst'

/-- In a valid trace every store event is in bounds: its column is below
the image width and its row below the image height. -/
theorem valid_store_bounds (W H T : ℕ) (tr : List Ev) (hv : ValidTrace W H T tr)
    (t i j : ℕ) (hmem : Ev.store t i j ∈ tr) : i < W ∧ j < H := by
  obtain ⟨hv1, hv2, hv3⟩ := hv
  rcases hv3 _ hmem with hmain | ⟨t0, ht0, hw⟩
  · exact absurd hmain (by simp [isMainEv])
  · have htt0 : t = t0 := by simpa [evWorker] using hw
    subst htt0
    have hbel : belongsTo t (Ev.store t i j) = true := by simp [belongsTo]
    have hmemf : Ev.store t i j ∈ tr.filter (belongsTo t) :=
      List.mem_filter.mpr ⟨hmem, hbel⟩
    rw [hv2 t ht0] at hmemf
    rcases List.mem_cons.mp hmemf with heq | hmemf
    · exact absurd heq (by simp)
    rcases List.mem_append.mp hmemf with hmemw | heq
    · unfold workerTrace at hmemw
      obtain ⟨j', hj', hrow⟩ := List.mem_flatMap.mp hmemw
      unfold rowEvents at hrow
      rcases List.mem_cons.mp hrow with heq | hrow
      · exact absurd heq (by simp)
      · obtain ⟨i', hi', heq⟩ := List.mem_map.mp hrow
        have : i' = i ∧ j' = j := by
          constructor <;> [skip; skip] <;> injection heq with h1 h2 h3 <;> omega
        obtain ⟨rfl, rfl⟩ := this
        refine ⟨List.mem_range.mp hi', ?_⟩
        have hass : assignedRows H T t j' :=
          (range'_row_mem H T t j' (by omega) ht0).mp hj'
        exact assigned_lt_of_mem H T t j' (by omega) ht0 hass
    · exact absurd heq (by simp)

/-- In a valid trace every pixel of the image is stored by the worker its
row is assigned to. -/
theorem valid_store_exists (W H T : ℕ) (tr : List Ev) (hv : ValidTrace W H T tr)
    (hT : 1 ≤ T) (i j : ℕ) (hi : i < W) (hj : j < H) :
    tr.any (isStoreAt i j) = true := by
  obtain ⟨hv1, hv2, hv3⟩ := hv
  obtain ⟨t0, ⟨ht0, ha0⟩, _⟩ := partition_exists_unique H T (by omega) hT j hj
  have hrowmem : j ∈ List.range' (rowStart H T t0) (rowEnd H T t0 - rowStart H T t0) :=
    (range'_row_mem H T t0 j hT ht0).mpr ha0
  have hstore : Ev.store t0 i j ∈ workerTrace W H T t0 := by
    unfold workerTrace
    refine List.mem_flatMap.mpr ⟨j, hrowmem, ?_⟩
    unfold rowEvents
    exact List.mem_cons_of_mem _ (List.mem_map.mpr ⟨i, List.mem_range.mpr hi, rfl⟩)
  have hmemf : Ev.store t0 i j ∈ tr.filter (belongsTo t0) := by
    rw [hv2 t0 ht0]
    exact List.mem_cons_of_mem _ (List.mem_append.mpr (Or.inl hstore))
  exact List.any_eq_true.mpr
    ⟨Ev.store t0 i j, List.mem_of_mem_filter hmemf, by simp [isStoreAt]⟩

/-- Claim C10: in every valid trace of a render with `W ≥ 1`, `H ≥ 1` and
`T ≥ 1` workers, the pixel buffer (initialized to `W * H` cells) keeps
length `W * H`; after all events the cell at flat index `j * W + i` holds
exactly the color the per-pixel sampling loop computed for pixel
`(i, j)`; and the buffer is serialized exactly once, in increasing flat
index (row-major) order, one `write_color` emission per element. -/
theorem c10_buffer (W H T : ℕ) (tr : List Ev) (sq tn : ℚ → ℚ)
    (cfg : CameraConfig) (st : CameraState) (world : Hittable)
    (rnd : ℕ → ℕ → ℕ → SampleDraw) (hT : 1 ≤ T) (hv : ValidTrace W H T tr) :
    (applyTrace W (fun i j => renderPixel sq cfg st world (rnd i j) i j) tr
        (List.replicate (W * H) black)).length = W * H
    ∧ (∀ i j, i < W → j < H →
        (applyTrace W (fun i j => renderPixel sq cfg st world (rnd i j) i j) tr
            (List.replicate (W * H) black))[j * W + i]?
          = some (renderPixel sq cfg st world (rnd i j) i j))
    ∧ tr.filter isEmit = (List.range (W * H)).map Ev.emit := by
  refine ⟨?_, ?_, ?_⟩
  · rw [applyTrace_length, List.length_replicate]
  · intro i j hi hj
    rw [applyTrace_getElem W H _ i j hi hj tr _ (by rw [List.length_replicate])
        (fun t' i' j' hmem => (valid_store_bounds W H T tr hv t' i' j' hmem).1),
      if_pos (valid_store_exists W H T tr hv hT i j hi hj)]
  · obtain ⟨hv1, _, _⟩ := hv
    rw [filter_sub tr _ _ isMainEv hv1 emit_main, mainOrder_filter_emit]

/-- Witness for C10 on the sequential 1×1 trace: the single buffer cell
holds the color computed for pixel `(0, 0)` and exactly one emission
follows. -/
theorem c10_buffer_witness :
    (applyTrace 1 (fun i j => renderPixel id testConfig (initCamera id id testConfig)
        emptyWorld ((fun _ _ _ => ((0, 0), (0, 0))) i j) i j) seqTrace1
        (List.replicate (1 * 1) black))[0 * 1 + 0]?
      = some (renderPixel id testConfig (initCamera id id testConfig) emptyWorld
          ((fun _ _ _ => (((0 : ℚ), (0 : ℚ)), ((0 : ℚ), (0 : ℚ)))) 0 0) 0 0)
    ∧ seqTrace1.filter isEmit = (List.range (1 * 1)).map Ev.emit :=
  have h := c10_buffer 1 1 1 seqTrace1 id id testConfig (initCamera id id testConfig)
    emptyWorld (fun _ _ _ => ((0, 0), (0, 0))) (by decide) (by decide)
  ⟨h.2.1 0 0 (by decide) (by decide), h.2.2⟩

/-! ## C9: output quantization -/

theorem clampQ_mem (x : ℚ) : 0 ≤ clampQ 0 (999 / 1000) x
    ∧ clampQ 0 (999 / 1000) x ≤ 999 / 1000 := by
  unfold clampQ
  split_ifs with h1 h2
  · norm_num
  · norm_num
  · constructor
    · linarith
    · linarith

theorem colorByte_bounds (x : ℚ) : 0 ≤ colorByte x ∧ colorByte x ≤ 255 := by
  obtain ⟨h0, h1⟩ := clampQ_mem x
  unfold colorByte cppTrunc
  rw [if_neg (not_lt.mpr (by linarith))]
  constructor
  · exact Int.le_floor.mpr (by push_cast; linarith)
  · have : ⌊256 * clampQ 0 (999 / 1000) x⌋ < 256 :=
      Int.floor_lt.mpr (by push_cast; linarith)
    omega

/-- Claim C9: `write_color` clamps each channel independently to
`[0, 0.999]`, multiplies by 256 and truncates toward zero: input `1.0`
maps to byte `255`, input `0.0` to `0`, input `-5.0` to `0`, every output
byte lies in `[0, 255]`, and the printed triple applies exactly this map
(and nothing else — in particular no gamma correction) to the three
channels. -/
theorem c9_write_color :
    (∀ x : ℚ, 0 ≤ colorByte x ∧ colorByte x ≤ 255)
    ∧ colorByte 1 = 255
    ∧ colorByte 0 = 0
    ∧ colorByte (-5) = 0
    ∧ (∀ c : Color, write_color c =
        (cppTrunc (256 * clampQ 0 (999 / 1000) c.x),
         cppTrunc (256 * clampQ 0 (999 / 1000) c.y),
         cppTrunc (256 * clampQ 0 (999 / 1000) c.z))) := by
  refine ⟨colorByte_bounds, ?_, ?_, ?_, fun c => rfl⟩
  · norm_num [colorByte, clampQ, cppTrunc]
  · norm_num [colorByte, clampQ, cppTrunc]
  · norm_num [colorByte, clampQ, cppTrunc]

end Raytracer
